import Mathlib

/-!
Shallow embedding of the fuzzy name-matching engine of `src/app.py`
(`match_instructions` and its helpers `_expand_variants`, `_snippet`,
`_seq_ratio`, the `FORMS` vocabulary).

Modelling conventions:
* Python strings are Lean `String`s processed as `List Char`;
  `str.lower()` is modelled with `Char.toLower` (the data handled by the
  application is ASCII).
* Python floats are modelled as exact rationals `ℚ`; `round(x, 3)` is
  modelled as round-half-to-even at three decimals.
* `difflib.SequenceMatcher(None, a, b).ratio()` is modelled by the
  recursive longest-matching-block computation; for the short strings
  involved the autojunk heuristic of `difflib` (active only when
  `len(b) >= 200`) never fires, so it is not modelled.
* A Python exception escaping the engine is modelled by `none` in the
  outer `Option` of `matchInstructions`; a skipped catalog entry is the
  inner `none` of `processEntry`.
* `dict.items()` iteration over the catalog is modelled by an ordered
  association list; Python's stable `list.sort` is modelled by the
  (stable) `List.insertionSort`.
-/

namespace MedGuide

/-- Python whitespace (space, tab, carriage return, newline). -/
def isWs (c : Char) : Bool := c.isWhitespace

/-- `str.lower()` (ASCII case mapping). -/
def lower (s : String) : String := String.mk (s.data.map Char.toLower)

/-- Maximal runs of characters not satisfying `p`; empty runs are dropped.
`acc` holds the (reversed) run currently being read. -/
def splitRunsAux (p : Char → Bool) : List Char → List Char → List (List Char)
  | [], acc => if acc.isEmpty then [] else [acc.reverse]
  | c :: cs, acc =>
    if p c then
      if acc.isEmpty then splitRunsAux p cs []
      else acc.reverse :: splitRunsAux p cs []
    else splitRunsAux p cs (c :: acc)

/-- Split into maximal separator-free runs, dropping empty pieces. -/
def splitRuns (p : Char → Bool) (l : List Char) : List (List Char) :=
  splitRunsAux p l []

/-- Python `str.split()` with no argument: split on whitespace runs. -/
def pySplitWs (s : String) : List String :=
  (splitRuns isWs s.data).map String.mk

/-- Strip characters satisfying `p` from both ends of a string. -/
def stripP (p : Char → Bool) (s : String) : String :=
  String.mk (((s.data.dropWhile p).reverse.dropWhile p).reverse)

/-- Python `str.strip()` (whitespace). -/
def pyStrip (s : String) : String := stripP isWs s

/-- The punctuation set `.,;:()[]/%"'` stripped from token ends
(34 is the double quote, 39 the apostrophe). -/
def PUNCT : List Char :=
  ['.', ',', ';', ':', '(', ')', '[', ']', '/', '%', Char.ofNat 34, Char.ofNat 39]

/-- Python `w.strip(".,;:()[]/%\x22\x27")`. -/
def stripPunct (s : String) : String := stripP (PUNCT.contains ·) s

/-- The token list built by the source:
`text_words = [w.strip(punct) for w in text.split() if w.strip()]`
over the lowercased input.  Note that the guard tests the piece *before*
punctuation stripping, so a piece consisting only of punctuation yields an
empty token. -/
def textWords (extractedText : String) : List String :=
  ((pySplitWs (lower extractedText)).filter (fun w => pyStrip w != "")).map stripPunct

/-- `text_join = " ".join(text_words)`. -/
def textJoin (extractedText : String) : String :=
  String.intercalate " " (textWords extractedText)

/-- The `FORMS` vocabulary of generic pharmaceutical form words. -/
def FORMS : List String :=
  ["cream", "gel", "ointment", "shampoo", "syrup", "tablet", "capsule",
   "solution", "ointment/cream", "ointment/gel"]

/-- `FORMS` as a finite set. -/
def FORMSet : Finset String := FORMS.toFinset

/-- Separator class of `re.split(r"[\s/,]+", ...)`. -/
def sepP (c : Char) : Bool := c.isWhitespace || c == '/' || c == ','

/-- `drug_tokens`: tokens of the lowercased name split on whitespace, `/`
and `,`, empties dropped (the subsequent `t.strip()` is a no-op because no
piece contains whitespace). -/
def drugTokens (drugLower : String) : Finset String :=
  ((splitRuns sepP drugLower.data).map String.mk).toFinset

/-- `drug_core_tokens`: the name's tokens minus the form words, falling
back to all tokens when removing form words leaves nothing. -/
def coreTokens (drug : String) : Finset String :=
  let dt := drugTokens (lower drug)
  if dt \ FORMSet = ∅ then dt else dt \ FORMSet

/-- Insert into a Python-set-modelling list unless already present.
(The source uses a `set`; we fix insertion order, which only influences
the reported `matched_variant`, never scores or ranking.) -/
def addUnique (l : List String) (s : String) : List String :=
  if s ∈ l then l else l ++ [s]

/-- Python `name.split("/")`: single-character split keeping empty pieces. -/
def splitOnSlash : List Char → List (List Char)
  | [] => [[]]
  | c :: cs =>
    match splitOnSlash cs with
    | [] => [[]]
    | h :: t => if c == '/' then [] :: h :: t else (c :: h) :: t

/-- `for p in parts: if p: variants.add(p.lower())`. -/
def segStep (acc : List String) (p : String) : List String :=
  if p ≠ "" then addUnique acc (lower p) else acc

/-- `variants.add(f"{core} {last}".strip().lower())` where
`last = p.split()[-1] if p.split() else p`. -/
def comboStep (core : String) (acc : List String) (p : String) : List String :=
  addUnique acc (lower (pyStrip (core ++ " " ++ (pySplitWs p).getLastD p)))

/-- `_expand_variants`.  `none` models the `IndexError` the source raises
when the first slash segment is empty (`fw[0]` on an empty `fw`). -/
def expandVariants (name0 : String) : Option (List String) :=
  let name := pyStrip name0
  if name = "" then some []
  else
    let base := [lower name]
    if name.data.contains '/' then
      let parts := (splitOnSlash name.data).map (fun p => pyStrip (String.mk p))
      let withSegs := parts.foldl segStep base
      let fw := pySplitWs (parts.headD "")
      match fw with
      | [] => none
      | w :: ws =>
        let core := if ws.isEmpty then w else String.intercalate " " (fw.dropLast)
        some (parts.foldl (comboStep core) withSegs)
    else some base

/-- Length of the longest common prefix of two character lists. -/
def commonPrefixLen : List Char → List Char → Nat
  | a :: as, b :: bs => if a == b then commonPrefixLen as bs + 1 else 0
  | _, _ => 0

/-- `difflib.SequenceMatcher.find_longest_match` (no junk): the longest
matching block `(i, j, k)`, preferring the earliest start in `a`, then the
earliest start in `b`. -/
def findLongestMatch (a b : List Char) : Nat × Nat × Nat :=
  (List.range (a.length + 1)).foldl (fun best i =>
    (List.range (b.length + 1)).foldl (fun best j =>
      let k := commonPrefixLen (a.drop i) (b.drop j)
      if k > best.2.2 then (i, j, k) else best) best) (0, 0, 0)

/-- Total size of the matching blocks of `difflib.get_matching_blocks`:
recursively take the longest matching block and recurse on both sides.
`fuel` bounds the recursion depth; `a.length + 1` always suffices because
each recursive call strictly shrinks `a`. -/
def matchSizes (fuel : Nat) (a b : List Char) : Nat :=
  match fuel with
  | 0 => 0
  | fuel + 1 =>
    let m := findLongestMatch a b
    if m.2.2 = 0 then 0
    else
      matchSizes fuel (a.take m.1) (b.take m.2.1) + m.2.2 +
        matchSizes fuel (a.drop (m.1 + m.2.2)) (b.drop (m.2.1 + m.2.2))

/-- `_seq_ratio(a, b) = SequenceMatcher(None, a, b).ratio()`:
`2 * M / (len a + len b)`, and `1.0` when both strings are empty. -/
def seqSim (a b : String) : ℚ :=
  let la := a.data.length
  let lb := b.data.length
  if la + lb = 0 then 1
  else mkRat (2 * matchSizes (la + 1) a.data b.data) (la + lb)

/-- Substring test (Python `in` on strings). -/
def isSubstr (a b : String) : Bool :=
  (List.range (b.data.length + 1)).any (fun i => a.data.isPrefixOf (b.data.drop i))

/-- Score of one candidate variant against the text: exact-substring
short-circuit, else the max of windowed sequence similarity, weighted token
overlap and weighted keyword coverage. -/
def scoreCand (tw : List String) (tj : String) (kwFrac : ℚ) (cand : String) : ℚ :=
  if isSubstr cand tj then 1
  else
    let candToks := (pySplitWs cand).toFinset
    let overlap : ℚ :=
      if candToks.card = 0 then 0
      else mkRat ((candToks ∩ tw.toFinset).card) candToks.card
    let wsz := max 1 candToks.card
    let windows := (List.range (max 1 (tw.length - wsz + 1))).map
      (fun i => String.intercalate " " ((tw.drop i).take wsz))
    let maxNg := windows.foldl (fun m w => max m (seqSim cand w)) 0
    let maxNg2 := max maxNg (seqSim cand tj)
    max (max maxNg2 (overlap * mkRat 9 10)) (kwFrac * mkRat 17 20)

/-- `len(cand_tokens) == 1 and list(cand_tokens)[0] in FORMS`:
a bare form-only variant, skipped from scoring. -/
def isBareForm (cand : String) : Bool :=
  let ct := (pySplitWs cand).toFinset
  ct.card == 1 && decide (ct ⊆ FORMSet)

/-- State of the per-entry loop over variants. -/
structure ScanAcc where
  best : ℚ
  bestVar : Option String
  anyCand : Bool
deriving Repr, DecidableEq

/-- One iteration of the variant loop (skips, scoring, best tracking, and
the `best_score >= 0.999` early break, modelled by freezing the state). -/
def variantStep (tw : List String) (tj : String) (kwFrac : ℚ)
    (acc : ScanAcc) (cand0 : String) : ScanAcc :=
  if acc.best ≥ mkRat 999 1000 then acc
  else
    let cand := lower (pyStrip cand0)
    if cand = "" then acc
    else if isBareForm cand then acc
    else
      let score := scoreCand tw tj kwFrac cand
      if score > acc.best then ⟨score, some cand, true⟩
      else ⟨acc.best, acc.bestVar, true⟩

/-- The variant loop of `match_instructions`. -/
def scanVariants (tw : List String) (tj : String) (kwFrac : ℚ)
    (vars : List String) : ScanAcc :=
  vars.foldl (variantStep tw tj kwFrac) ⟨0, none, false⟩

/-- One entry of the returned list:
`(drug_name, matched_variant, instruction_snippet, score)`. -/
structure MatchResult where
  name : String
  variant : String
  payload : String
  score : ℚ
deriving Repr, DecidableEq

/-- `_snippet`: the full instruction text, stripped. -/
def snippetOf (text : String) : String := if text = "" then "" else pyStrip text

/-- Round half to even (Python `round` on an exactly-representable value). -/
def roundHalfEven (y : ℚ) : ℤ :=
  if y - (y.floor : ℚ) < mkRat 1 2 then y.floor
  else if mkRat 1 2 < y - (y.floor : ℚ) then y.floor + 1
  else if y.floor % 2 = 0 then y.floor else y.floor + 1

/-- `round(x, 3)`. -/
def round3 (x : ℚ) : ℚ := mkRat (roundHalfEven (mkRat 1000 1 * x)) 1000

/-- The appended result tuple
`(drug, best_variant or drug, _snippet(instr), round(final_score, 3))`. -/
def mkResult (drug instr : String) (acc : ScanAcc) (final : ℚ) : MatchResult :=
  ⟨drug,
    (match acc.bestVar with
     | some v => if v = "" then drug else v
     | none => drug),
    snippetOf instr, round3 final⟩

/-- The body of the loop over catalog entries.  The outer `none` models an
uncaught exception; the inner `none` a skipped entry that produces no
result. -/
def processEntry (tw : List String) (tj : String) (cutoff : ℚ)
    (drug instr : String) : Option (Option MatchResult) :=
  if pyStrip drug = "" then some none
  else
    let core := coreTokens drug
    let matched := core ∩ tw.toFinset
    let kwFrac : ℚ := if core = ∅ then 0 else mkRat matched.card core.card
    if matched = ∅ then some none
    else
      match expandVariants drug with
      | none => none
      | some vars =>
        let acc := scanVariants tw tj kwFrac vars
        if acc.anyCand = false then some none
        else
          let final :=
            if kwFrac ≥ 1 then max acc.best (mkRat 19 20)
            else if kwFrac ≥ mkRat 4 5 then max acc.best (mkRat 17 20)
            else acc.best
          if final ≥ cutoff ∧ matched ≠ ∅ then
            some (some (mkResult drug instr acc final))
          else some none

/-- Fold step accumulating results over the catalog, absorbing exceptions. -/
def entryFold (tw : List String) (tj : String) (cutoff : ℚ)
    (acc : Option (List MatchResult)) (e : String × String) :
    Option (List MatchResult) :=
  match acc with
  | none => none
  | some rs =>
    match processEntry tw tj cutoff e.1 e.2 with
    | none => none
    | some none => some rs
    | some (some r) => some (rs ++ [r])

/-- Sort key of `results.sort(key=lambda x: (-x[3], x[0]))`:
score descending, ties by name ascending. -/
def resLe (a b : MatchResult) : Prop :=
  b.score < a.score ∨ (a.score = b.score ∧ a.name ≤ b.name)

instance : DecidableRel resLe := fun a b =>
  inferInstanceAs (Decidable (b.score < a.score ∨ (a.score = b.score ∧ a.name ≤ b.name)))

/-- The final stable sort (Python's `list.sort` is stable; so is
insertion sort, hence they agree on every input). -/
def sortResults (rs : List MatchResult) : List MatchResult :=
  rs.insertionSort resLe

/-- `match_instructions(extracted_text, cutoff, max_results)` over a catalog
snapshot `db` (the `get_all_drugs_dict()` items in order).  `none` models an
exception escaping the engine. -/
def matchInstructions (extractedText : String) (db : List (String × String))
    (cutoff : ℚ) (maxResults : Nat) : Option (List MatchResult) :=
  if extractedText = "" then some []
  else
    let tw := textWords extractedText
    let tj := textJoin extractedText
    match db.foldl (entryFold tw tj cutoff) (some []) with
    | none => none
    | some rs => some ((sortResults rs).take maxResults)

/-! ## Infrastructure lemmas -/

attribute [local semireducible] Rat.mul Rat.add Rat.sub String.ltb

set_option maxRecDepth 4000

variable {tw : List String} {tj : String} {cutoff : ℚ}

theorem foldl_entryFold_none (db : List (String × String)) :
    db.foldl (entryFold tw tj cutoff) none = none := by
  induction db with
  | nil => rfl
  | cons e es ih => simpa [entryFold] using ih

theorem foldl_entryFold_mono {db : List (String × String)}
    {acc0 rs : List MatchResult}
    (h : db.foldl (entryFold tw tj cutoff) (some acc0) = some rs) :
    ∀ x ∈ acc0, x ∈ rs := by
  induction db generalizing acc0 with
  | nil =>
    simp only [List.foldl_nil, Option.some.injEq] at h
    subst h; exact fun x hx => hx
  | cons e es ih =>
    obtain ⟨n0, p0⟩ := e
    rw [List.foldl_cons] at h
    rcases hpe : processEntry tw tj cutoff n0 p0 with _ | _ | r0
    · rw [show entryFold tw tj cutoff (some acc0) (n0, p0) = none by
        simp [entryFold, hpe], foldl_entryFold_none] at h
      exact absurd h (by simp)
    · rw [show entryFold tw tj cutoff (some acc0) (n0, p0) = some acc0 by
        simp [entryFold, hpe]] at h
      exact ih h
    · rw [show entryFold tw tj cutoff (some acc0) (n0, p0) = some (acc0 ++ [r0]) by
        simp [entryFold, hpe]] at h
      exact fun x hx => ih h x (by simp [hx])

theorem foldl_entryFold_length {db : List (String × String)}
    {acc0 rs : List MatchResult}
    (h : db.foldl (entryFold tw tj cutoff) (some acc0) = some rs) :
    rs.length ≤ acc0.length + db.length := by
  induction db generalizing acc0 with
  | nil =>
    simp only [List.foldl_nil, Option.some.injEq] at h
    subst h; simp
  | cons e es ih =>
    obtain ⟨n0, p0⟩ := e
    rw [List.foldl_cons] at h
    rcases hpe : processEntry tw tj cutoff n0 p0 with _ | _ | r0
    · rw [show entryFold tw tj cutoff (some acc0) (n0, p0) = none by
        simp [entryFold, hpe], foldl_entryFold_none] at h
      exact absurd h (by simp)
    · rw [show entryFold tw tj cutoff (some acc0) (n0, p0) = some acc0 by
        simp [entryFold, hpe]] at h
      have := ih h
      simp only [List.length_cons]
      omega
    · rw [show entryFold tw tj cutoff (some acc0) (n0, p0) = some (acc0 ++ [r0]) by
        simp [entryFold, hpe]] at h
      have := ih h
      simp only [List.length_append, List.length_singleton, List.length_cons, List.length_nil] at this ⊢
      omega

theorem foldl_entryFold_noerr {db : List (String × String)}
    {acc0 rs : List MatchResult}
    (h : db.foldl (entryFold tw tj cutoff) (some acc0) = some rs) :
    ∀ n p, (n, p) ∈ db → processEntry tw tj cutoff n p ≠ none := by
  induction db generalizing acc0 with
  | nil => simp
  | cons e es ih =>
    obtain ⟨n0, p0⟩ := e
    rw [List.foldl_cons] at h
    intro n p hmem
    rcases hpe : processEntry tw tj cutoff n0 p0 with _ | _ | r0
    · rw [show entryFold tw tj cutoff (some acc0) (n0, p0) = none by
        simp [entryFold, hpe], foldl_entryFold_none] at h
      exact absurd h (by simp)
    · rw [show entryFold tw tj cutoff (some acc0) (n0, p0) = some acc0 by
        simp [entryFold, hpe]] at h
      rcases List.mem_cons.1 hmem with heq | hmem2
      · rw [Prod.mk.injEq] at heq
        obtain ⟨rfl, rfl⟩ := heq
        rw [hpe]; simp
      · exact ih h n p hmem2
    · rw [show entryFold tw tj cutoff (some acc0) (n0, p0) = some (acc0 ++ [r0]) by
        simp [entryFold, hpe]] at h
      rcases List.mem_cons.1 hmem with heq | hmem2
      · rw [Prod.mk.injEq] at heq
        obtain ⟨rfl, rfl⟩ := heq
        rw [hpe]; simp
      · exact ih h n p hmem2

theorem foldl_entryFold_collect {db : List (String × String)}
    {acc0 rs : List MatchResult} {n p : String} {r : MatchResult}
    (h : db.foldl (entryFold tw tj cutoff) (some acc0) = some rs)
    (hmem : (n, p) ∈ db)
    (hpr : processEntry tw tj cutoff n p = some (some r)) :
    r ∈ rs := by
  induction db generalizing acc0 with
  | nil => simp at hmem
  | cons e es ih =>
    obtain ⟨n0, p0⟩ := e
    rw [List.foldl_cons] at h
    rcases hpe : processEntry tw tj cutoff n0 p0 with _ | _ | r0
    · rw [show entryFold tw tj cutoff (some acc0) (n0, p0) = none by
        simp [entryFold, hpe], foldl_entryFold_none] at h
      exact absurd h (by simp)
    · rw [show entryFold tw tj cutoff (some acc0) (n0, p0) = some acc0 by
        simp [entryFold, hpe]] at h
      rcases List.mem_cons.1 hmem with heq | hmem2
      · rw [Prod.mk.injEq] at heq
        obtain ⟨rfl, rfl⟩ := heq
        rw [hpe] at hpr; simp at hpr
      · exact ih h hmem2
    · rw [show entryFold tw tj cutoff (some acc0) (n0, p0) = some (acc0 ++ [r0]) by
        simp [entryFold, hpe]] at h
      rcases List.mem_cons.1 hmem with heq | hmem2
      · rw [Prod.mk.injEq] at heq
        obtain ⟨rfl, rfl⟩ := heq
        rw [hpe] at hpr
        have hr0 : r0 = r := by simpa using hpr
        exact foldl_entryFold_mono h r (by simp [hr0])
      · exact ih h hmem2

theorem foldl_entryFold_mem {db : List (String × String)}
    {acc0 rs : List MatchResult}
    (h : db.foldl (entryFold tw tj cutoff) (some acc0) = some rs) :
    ∀ r ∈ rs, r ∈ acc0 ∨
      ∃ n p, (n, p) ∈ db ∧ processEntry tw tj cutoff n p = some (some r) := by
  induction db generalizing acc0 with
  | nil =>
    simp only [List.foldl_nil, Option.some.injEq] at h
    subst h; exact fun r hr => Or.inl hr
  | cons e es ih =>
    obtain ⟨n0, p0⟩ := e
    rw [List.foldl_cons] at h
    intro r hr
    rcases hpe : processEntry tw tj cutoff n0 p0 with _ | _ | r0
    · rw [show entryFold tw tj cutoff (some acc0) (n0, p0) = none by
        simp [entryFold, hpe], foldl_entryFold_none] at h
      exact absurd h (by simp)
    · rw [show entryFold tw tj cutoff (some acc0) (n0, p0) = some acc0 by
        simp [entryFold, hpe]] at h
      rcases ih h r hr with hin | ⟨n, p, hm, hp⟩
      · exact Or.inl hin
      · exact Or.inr ⟨n, p, List.mem_cons_of_mem _ hm, hp⟩
    · rw [show entryFold tw tj cutoff (some acc0) (n0, p0) = some (acc0 ++ [r0]) by
        simp [entryFold, hpe]] at h
      rcases ih h r hr with hin | ⟨n, p, hm, hp⟩
      · rcases List.mem_append.1 hin with hin0 | hin1
        · exact Or.inl hin0
        · refine Or.inr ⟨n0, p0, List.mem_cons_self _ _, ?_⟩
          rw [hpe]
          have : r = r0 := List.mem_singleton.1 hin1
          rw [this]
      · exact Or.inr ⟨n, p, List.mem_cons_of_mem _ hm, hp⟩

theorem matchInstructions_decomp {text : String} {db : List (String × String)}
    {cutoff : ℚ} {m : Nat} {out : List MatchResult}
    (h : matchInstructions text db cutoff m = some out) (hne : text ≠ "") :
    ∃ rs, db.foldl (entryFold (textWords text) (textJoin text) cutoff) (some []) = some rs ∧
      out = (sortResults rs).take m := by
  unfold matchInstructions at h
  rw [if_neg hne] at h
  rcases hf : db.foldl (entryFold (textWords text) (textJoin text) cutoff) (some []) with _ | rs
  · simp [hf] at h
  · simp only [hf, Option.some.injEq] at h
    exact ⟨rs, rfl, h.symm⟩

theorem processEntry_some {drug instr : String} {r : MatchResult}
    (h : processEntry tw tj cutoff drug instr = some (some r)) :
    r.name = drug ∧ r.payload = snippetOf instr ∧
      (coreTokens drug ∩ tw.toFinset).Nonempty ∧
      ∃ fs : ℚ, cutoff ≤ fs ∧ r.score = round3 fs := by
  simp only [processEntry] at h
  repeat' split at h
  all_goals first
  | (rename_i hcond
     simp only [Option.some.injEq] at h
     subst h
     exact ⟨rfl, rfl, Finset.nonempty_iff_ne_empty.mpr hcond.2, _, hcond.1, rfl⟩)
  | exact absurd h (by simp)

theorem rat_floor_le (y : ℚ) : (y.floor : ℚ) ≤ y :=
  Rat.le_floor.mp le_rfl

theorem lt_rat_floor_add_one (y : ℚ) : y < y.floor + 1 := by
  by_contra hc
  push_neg at hc
  have : y.floor + 1 ≤ y.floor := Rat.le_floor.mpr (by push_cast; exact hc)
  omega

theorem roundHalfEven_bounds (y : ℚ) :
    y - mkRat 1 2 ≤ (roundHalfEven y : ℚ) ∧ (roundHalfEven y : ℚ) ≤ y + mkRat 1 2 := by
  have h1 : (y.floor : ℚ) ≤ y := rat_floor_le y
  have h2 : y < y.floor + 1 := lt_rat_floor_add_one y
  have hmk : (mkRat 1 2 : ℚ) = 1 / 2 := by norm_num [Rat.mkRat_eq_div]
  unfold roundHalfEven
  split_ifs with ha hb hc <;> constructor <;> push_cast <;> rw [hmk] at * <;> linarith

theorem round3_bounds (x : ℚ) :
    x - mkRat 1 2000 ≤ round3 x ∧ round3 x ≤ x + mkRat 1 2000 := by
  have h := roundHalfEven_bounds (mkRat 1000 1 * x)
  have hmk : (mkRat 1000 1 : ℚ) = 1000 := by norm_num [Rat.mkRat_eq_div]
  have hmk2 : (mkRat 1 2 : ℚ) = 1 / 2 := by norm_num [Rat.mkRat_eq_div]
  have hmk3 : (mkRat 1 2000 : ℚ) = 1 / 2000 := by norm_num [Rat.mkRat_eq_div]
  have hr3 : round3 x = (roundHalfEven (mkRat 1000 1 * x) : ℚ) / 1000 := by
    unfold round3
    rw [Rat.mkRat_eq_div]
    norm_num
  rw [hmk, hmk2] at h
  rw [hmk3, hr3]
  constructor <;> linarith

instance : IsTotal MatchResult resLe :=
  ⟨fun a b => by
    unfold resLe
    rcases lt_trichotomy a.score b.score with h | h | h
    · exact Or.inr (Or.inl h)
    · rcases le_total a.name b.name with hn | hn
      · exact Or.inl (Or.inr ⟨h, hn⟩)
      · exact Or.inr (Or.inr ⟨h.symm, hn⟩)
    · exact Or.inl (Or.inl h)⟩

instance : IsTrans MatchResult resLe :=
  ⟨fun a b c hab hbc => by
    unfold resLe at *
    rcases hab with h1 | ⟨h1, h1n⟩ <;> rcases hbc with h2 | ⟨h2, h2n⟩
    · exact Or.inl (lt_trans h2 h1)
    · exact Or.inl (by rw [← h2]; exact h1)
    · exact Or.inl (by rw [h1]; exact h2)
    · exact Or.inr ⟨h1.trans h2, le_trans h1n h2n⟩⟩

theorem sortResults_sorted (rs : List MatchResult) :
    List.Sorted resLe (sortResults rs) :=
  List.sorted_insertionSort resLe rs

theorem mem_sortResults {r : MatchResult} {rs : List MatchResult} :
    r ∈ sortResults rs ↔ r ∈ rs :=
  List.mem_insertionSort resLe

theorem length_sortResults (rs : List MatchResult) :
    (sortResults rs).length = rs.length :=
  List.length_insertionSort resLe rs

theorem lower_eq_empty_iff {s : String} : lower s = "" ↔ s = "" := by
  obtain ⟨d⟩ := s
  constructor
  · intro h
    have hd : d.map Char.toLower = [] := congrArg String.data h
    have hnil : d = [] := List.map_eq_nil_iff.mp hd
    rw [hnil]
  · intro h
    have hnil : d = [] := congrArg String.data h
    rw [hnil]
    rfl

theorem scanVariants_frozen {kwFrac : ℚ} {acc : ScanAcc}
    (hb : acc.best ≥ mkRat 999 1000) :
    ∀ vars : List String, vars.foldl (variantStep tw tj kwFrac) acc = acc := by
  intro vars
  induction vars with
  | nil => rfl
  | cons v vs ih =>
    rw [List.foldl_cons, variantStep, if_pos hb]
    exact ih

theorem foldl_extends (f : List String → String → List String)
    (hf : ∀ acc x, f acc x = acc ∨ ∃ y, f acc x = acc ++ [y]) :
    ∀ (xs : List String) (acc : List String), ∃ t, xs.foldl f acc = acc ++ t := by
  intro xs
  induction xs with
  | nil => exact fun acc => ⟨[], by simp⟩
  | cons x xs ih =>
    intro acc
    obtain ⟨t, ht⟩ := ih (f acc x)
    rcases hf acc x with h | ⟨y, h⟩
    · exact ⟨t, by rw [List.foldl_cons, ht, h]⟩
    · exact ⟨y :: t, by rw [List.foldl_cons, ht, h, List.append_assoc]; rfl⟩

theorem addUnique_extends (acc : List String) (y : String) :
    addUnique acc y = acc ∨ ∃ z, addUnique acc y = acc ++ [z] := by
  unfold addUnique
  split
  · exact Or.inl rfl
  · exact Or.inr ⟨y, rfl⟩

theorem segStep_extends (acc : List String) (p : String) :
    segStep acc p = acc ∨ ∃ z, segStep acc p = acc ++ [z] := by
  unfold segStep
  split
  · exact addUnique_extends acc (lower p)
  · exact Or.inl rfl

theorem comboStep_extends (core : String) (acc : List String) (p : String) :
    comboStep core acc p = acc ∨ ∃ z, comboStep core acc p = acc ++ [z] :=
  addUnique_extends acc _

theorem expandVariants_head {name : String} (hname : pyStrip name ≠ "") :
    expandVariants name = none ∨
      ∃ t, expandVariants name = some (lower (pyStrip name) :: t) := by
  unfold expandVariants
  rw [if_neg hname]
  split
  · rcases hfw : pySplitWs (((splitOnSlash (pyStrip name).data).map
        (fun p => pyStrip (String.mk p))).headD "") with _ | ⟨w, ws⟩
    · left
      simp only [hfw]
    · right
      simp only [hfw]
      obtain ⟨t1, ht1⟩ := foldl_extends segStep segStep_extends
        ((splitOnSlash (pyStrip name).data).map (fun p => pyStrip (String.mk p)))
        [lower (pyStrip name)]
      obtain ⟨t2, ht2⟩ := foldl_extends _ (comboStep_extends
          (if ws.isEmpty then w else String.intercalate " " ((w :: ws).dropLast)))
        ((splitOnSlash (pyStrip name).data).map (fun p => pyStrip (String.mk p)))
        (((splitOnSlash (pyStrip name).data).map (fun p => pyStrip (String.mk p))).foldl
          segStep [lower (pyStrip name)])
      refine ⟨t1 ++ t2, ?_⟩
      rw [ht2, ht1]
      simp
  · exact Or.inr ⟨[], rfl⟩

theorem char_toNat_ofNat_lt {m : Nat} (h : m < 55296) : (Char.ofNat m).toNat = m := by
  rw [Char.ofNat, dif_pos (Or.inl h)]
  rfl

theorem char_eq_iff_toNat {c d : Char} : c = d ↔ c.toNat = d.toNat := by
  constructor
  · intro h; rw [h]
  · intro h
    apply Char.eq_of_val_eq
    rcases c with ⟨⟨⟨cv, hc⟩⟩, _⟩
    rcases d with ⟨⟨⟨dv, hd⟩⟩, _⟩
    have : cv = dv := h
    subst this
    rfl

theorem isWs_true_iff (c : Char) : c.isWhitespace = true ↔
    (c.toNat = 32 ∨ c.toNat = 9 ∨ c.toNat = 13 ∨ c.toNat = 10) := by
  simp only [Char.isWhitespace, Bool.or_eq_true, decide_eq_true_eq]
  simp only [char_eq_iff_toNat]
  tauto

theorem toLower_not_upper {c : Char} (h : c.toNat < 65 ∨ 90 < c.toNat) : c.toLower = c := by
  unfold Char.toLower
  rw [if_neg (by omega)]

theorem toLower_toNat_bounds (c : Char) : c.toLower.toNat < 65 ∨ 90 < c.toLower.toNat := by
  simp only [Char.toLower]
  split
  · rename_i h
    rw [char_toNat_ofNat_lt (by omega)]
    omega
  · rename_i h
    omega

theorem toLower_toLower (c : Char) : c.toLower.toLower = c.toLower :=
  toLower_not_upper (toLower_toNat_bounds c)

theorem toLower_isWs (c : Char) : c.toLower.isWhitespace = c.isWhitespace := by
  simp only [Char.toLower]
  split
  · rename_i h
    have ht := char_toNat_ofNat_lt (m := c.toNat + 32) (by omega)
    have h1 : (Char.ofNat (c.toNat + 32)).isWhitespace = false := by
      cases hb : (Char.ofNat (c.toNat + 32)).isWhitespace
      · rfl
      · exfalso
        rcases (isWs_true_iff _).mp hb with h2 | h2 | h2 | h2 <;> rw [ht] at h2 <;> omega
    have h2 : c.isWhitespace = false := by
      cases hb : c.isWhitespace
      · rfl
      · exfalso
        rcases (isWs_true_iff _).mp hb with h2 | h2 | h2 | h2 <;> omega
    rw [h1, h2]
  · rfl

theorem isWs_comp_toLower : (isWs ∘ Char.toLower) = isWs := by
  funext c
  simp only [Function.comp, isWs, toLower_isWs]

theorem pyStrip_lower (s : String) : pyStrip (lower s) = lower (pyStrip s) := by
  unfold pyStrip stripP lower
  refine congrArg String.mk ?_
  show (((s.data.map Char.toLower).dropWhile isWs).reverse.dropWhile isWs).reverse
      = (((s.data.dropWhile isWs).reverse.dropWhile isWs).reverse).map Char.toLower
  rw [List.dropWhile_map, isWs_comp_toLower, ← List.map_reverse, List.dropWhile_map,
    isWs_comp_toLower, ← List.map_reverse]

theorem lower_lower (s : String) : lower (lower s) = lower s := by
  unfold lower
  refine congrArg String.mk ?_
  show (s.data.map Char.toLower).map Char.toLower = s.data.map Char.toLower
  rw [List.map_map]
  exact List.map_congr_left (fun c _ => toLower_toLower c)

theorem dropWhile_idem (p : α → Bool) (l : List α) :
    (l.dropWhile p).dropWhile p = l.dropWhile p := by
  rcases hh : l.dropWhile p with _ | ⟨x, xs⟩
  · rfl
  · have hx := List.head?_dropWhile_not p l
    rw [hh] at hx
    simp only [List.head?_cons] at hx
    rw [List.dropWhile_cons, hx]
    simp

theorem dropWhile_eq_self_of_head {p : α → Bool} {l : List α}
    (h : ∀ x, l.head? = some x → p x = false) : l.dropWhile p = l := by
  rcases l with _ | ⟨x, xs⟩
  · rfl
  · rw [List.dropWhile_cons, h x rfl]
    simp

theorem pyStrip_idem (s : String) : pyStrip (pyStrip s) = pyStrip s := by
  unfold pyStrip stripP
  refine congrArg String.mk ?_
  set A := s.data.dropWhile isWs with hA
  set e := ((A.reverse.dropWhile isWs).reverse : List Char) with he
  show ((e.dropWhile isWs).reverse.dropWhile isWs).reverse = e
  have hpre : e <+: A := by
    rw [he]
    have hp : (A.reverse.dropWhile isWs).reverse <+: A.reverse.reverse :=
      List.reverse_prefix.mpr (List.dropWhile_suffix isWs)
    rwa [List.reverse_reverse] at hp
  have h1 : e.dropWhile isWs = e := by
    apply dropWhile_eq_self_of_head
    intro x hx
    obtain ⟨t, ht⟩ := hpre
    have hx2 : A.head? = some x := by
      rcases e with _ | ⟨y, ys⟩
      · simp at hx
      · simp only [List.head?_cons, Option.some.injEq] at hx
        rw [← ht]
        simp [hx]
    have hw := List.head?_dropWhile_not isWs s.data
    rw [← hA, hx2] at hw
    simpa using hw
  rw [h1, he, List.reverse_reverse, dropWhile_idem]

theorem normName_fix (name : String) :
    lower (pyStrip (lower (pyStrip name))) = lower (pyStrip name) := by
  rw [pyStrip_lower, pyStrip_idem, lower_lower]

theorem mkRat999_pos : (0 : ℚ) < mkRat 999 1000 := by
  rw [Rat.mkRat_eq_div]; norm_num

theorem mkRat999_le_one : mkRat 999 1000 ≤ 1 := by
  rw [Rat.mkRat_eq_div]; norm_num

theorem round3_one : round3 1 = 1 := by decide

theorem scoreCand_substr {tw : List String} {tj : String} {kwFrac : ℚ} {cand : String}
    (h : isSubstr cand tj = true) : scoreCand tw tj kwFrac cand = 1 := by
  unfold scoreCand
  simp [h]

theorem scanVariants_base {tw : List String} {tj : String} {kwFrac : ℚ} {base : String} {rest : List String}
    (hfix : lower (pyStrip base) = base)
    (hne : base ≠ "")
    (hskip : isBareForm base = false)
    (hsub : isSubstr base tj = true) :
    scanVariants tw tj kwFrac (base :: rest) = ⟨1, some base, true⟩ := by
  unfold scanVariants
  rw [List.foldl_cons]
  have hstep : variantStep tw tj kwFrac ⟨0, none, false⟩ base = ⟨1, some base, true⟩ := by
    unfold variantStep
    rw [if_neg (by simp only [ScanAcc.best]; intro hc; exact absurd (le_trans hc (le_refl _)) (not_le.mpr mkRat999_pos))]
    rw [hfix, if_neg hne]
    rw [if_neg (by simp [hskip])]
    rw [scoreCand_substr hsub]
    rw [if_pos (by simp only [ScanAcc.best]; norm_num)]
  rw [hstep]
  exact scanVariants_frozen (by simp only [ScanAcc.best]; exact mkRat999_le_one) rest

theorem max_one_19 : max (1 : ℚ) (mkRat 19 20) = 1 := by
  rw [Rat.mkRat_eq_div]
  rw [max_eq_left (by norm_num)]

theorem max_one_17 : max (1 : ℚ) (mkRat 17 20) = 1 := by
  rw [Rat.mkRat_eq_div]
  rw [max_eq_left (by norm_num)]

theorem processEntry_exact {tw : List String} {tj : String} {cutoff : ℚ} (drug instr : String)
    (hname : pyStrip drug ≠ "")
    (hgate : coreTokens drug ∩ tw.toFinset ≠ ∅)
    (hexp : ∃ t, expandVariants drug = some (lower (pyStrip drug) :: t))
    (hskip : isBareForm (lower (pyStrip drug)) = false)
    (hsub : isSubstr (lower (pyStrip drug)) tj = true)
    (hcut : cutoff ≤ 1) :
    processEntry tw tj cutoff drug instr =
      some (some ⟨drug, lower (pyStrip drug), snippetOf instr, 1⟩) := by
  obtain ⟨t, ht⟩ := hexp
  have hfix := normName_fix drug
  have hbne : lower (pyStrip drug) ≠ "" := by
    intro hc
    exact hname (lower_eq_empty_iff.mp hc)
  unfold processEntry
  rw [if_neg hname, if_neg hgate]
  simp only [ht]
  rw [scanVariants_base hfix hbne hskip hsub]
  simp only [ScanAcc.best, ScanAcc.bestVar, ScanAcc.anyCand]
  rw [if_neg (by simp), max_one_19, max_one_17]
  simp only [ite_self]
  rw [if_pos ⟨hcut, hgate⟩]
  unfold mkResult
  simp only [ScanAcc.bestVar]
  rw [if_neg hbne, round3_one]

theorem isSubstr_empty_right {a : String} (h : isSubstr a "" = true) : a = "" := by
  obtain ⟨d⟩ := a
  rcases d with _ | ⟨c, cs⟩
  · rfl
  · unfold isSubstr at h
    simp [List.isPrefixOf] at h

/-- C3 (amended): for every catalog entry whose trimmed lowercased name is a
verbatim substring of the normalized query text, the output contains a result
for that entry with score exactly 1.0 — provided the entry passes the
core-token gate, its lowercased name is not a bare single form word, the name
is nonempty after trimming, the cutoff is at most 1, the call returns without
exception, and the catalog has at most maxResults entries. -/
theorem C3_exact_substring_scores_one (text : String) (db : List (String × String)) (cutoff : ℚ)
    (m : Nat) (out : List MatchResult) (name payload : String)
    (hmem : (name, payload) ∈ db)
    (hname : pyStrip name ≠ "")
    (hsub : isSubstr (lower (pyStrip name)) (textJoin text) = true)
    (hskip : isBareForm (lower (pyStrip name)) = false)
    (hgate : coreTokens name ∩ (textWords text).toFinset ≠ ∅)
    (hcut : cutoff ≤ 1)
    (hlen : db.length ≤ m)
    (hout : matchInstructions text db cutoff m = some out) :
    ∃ r ∈ out, r.name = name ∧ r.score = 1 := by
  have hbne : lower (pyStrip name) ≠ "" := by
    intro hc
    exact hname (lower_eq_empty_iff.mp hc)
  have htext : text ≠ "" := by
    intro hc
    subst hc
    exact hbne (isSubstr_empty_right hsub)
  obtain ⟨rs, hf, hout2⟩ := matchInstructions_decomp hout htext
  have hexp : ∃ t, expandVariants name = some (lower (pyStrip name) :: t) := by
    rcases expandVariants_head hname with hev | h
    · exfalso
      apply foldl_entryFold_noerr hf name payload hmem
      unfold processEntry
      rw [if_neg hname, if_neg hgate]
      simp only [hev]
    · exact h
  have hpe := processEntry_exact name payload hname hgate hexp hskip hsub hcut
  have hR : (⟨name, lower (pyStrip name), snippetOf payload, 1⟩ : MatchResult) ∈ rs :=
    foldl_entryFold_collect hf hmem hpe
  have hlen2 : (sortResults rs).length ≤ m := by
    rw [length_sortResults]
    have := foldl_entryFold_length hf
    simp only [List.length_nil] at this
    omega
  refine ⟨⟨name, lower (pyStrip name), snippetOf payload, 1⟩, ?_, rfl, rfl⟩
  rw [hout2, List.take_of_length_le hlen2]
  exact mem_sortResults.mpr hR

theorem result_origin {text : String} {db : List (String × String)} {cutoff : ℚ}
    {m : Nat} {out : List MatchResult}
    (h : matchInstructions text db cutoff m = some out) :
    ∀ r ∈ out, ∃ n p, (n, p) ∈ db ∧
      processEntry (textWords text) (textJoin text) cutoff n p = some (some r) := by
  by_cases htext : text = ""
  · subst htext
    have hout : out = [] := by
      unfold matchInstructions at h
      simp at h
      exact h
    subst hout
    simp
  · obtain ⟨rs, hf, hout2⟩ := matchInstructions_decomp h htext
    intro r hr
    rw [hout2] at hr
    have hr3 : r ∈ rs := mem_sortResults.mp (List.mem_of_mem_take hr)
    rcases foldl_entryFold_mem hf r hr3 with hin | hex
    · simp at hin
    · exact hex

theorem snippetOf_eq_pyStrip (s : String) : snippetOf s = pyStrip s := by
  unfold snippetOf
  split
  · rename_i h; rw [h]; rfl
  · rfl

theorem toLower_ws {c : Char} (h : c.isWhitespace = true) : c.toLower = c := by
  simp only [Char.isWhitespace, Bool.or_eq_true, decide_eq_true_eq] at h
  rcases h with ((h | h) | h) | h <;> subst h <;> decide

theorem splitRunsAux_all {p : Char → Bool} {l : List Char}
    (h : ∀ c ∈ l, p c = true) : splitRunsAux p l [] = [] := by
  induction l with
  | nil => rfl
  | cons c cs ih =>
    unfold splitRunsAux
    rw [if_pos (h c (List.mem_cons_self c cs))]
    simp only [List.isEmpty_nil, if_true]
    exact ih (fun x hx => h x (List.mem_cons_of_mem c hx))

theorem textWords_ws {text : String} (h : ∀ c ∈ text.data, c.isWhitespace = true) :
    textWords text = [] := by
  unfold textWords pySplitWs splitRuns
  have hall : ∀ c ∈ (lower text).data, isWs c = true := by
    intro c hc
    have : (lower text).data = text.data.map Char.toLower := rfl
    rw [this] at hc
    obtain ⟨c0, hc0, rfl⟩ := List.mem_map.mp hc
    unfold isWs
    rw [toLower_ws (h c0 hc0)]
    exact h c0 hc0
  rw [splitRunsAux_all hall]
  rfl

theorem processEntry_empty_tw {tj : String} {cutoff : ℚ} (n p : String) :
    processEntry [] tj cutoff n p = some none := by
  unfold processEntry
  split
  · rfl
  · rw [if_pos (by simp)]

theorem foldl_entryFold_all_none {tw : List String} {tj : String} {cutoff : ℚ}
    {db : List (String × String)} {acc : List MatchResult}
    (h : ∀ n p, (n, p) ∈ db → processEntry tw tj cutoff n p = some none) :
    db.foldl (entryFold tw tj cutoff) (some acc) = some acc := by
  induction db with
  | nil => rfl
  | cons e es ih =>
    obtain ⟨n0, p0⟩ := e
    rw [List.foldl_cons,
      show entryFold tw tj cutoff (some acc) (n0, p0) = some acc by
        simp [entryFold, h n0 p0 (List.mem_cons_self _ _)]]
    exact ih (fun n p hm => h n p (List.mem_cons_of_mem _ hm))

/-- C3 witness: a concrete catalog name occurring verbatim in the query is
returned with score 1.0. -/
theorem C3_exact_substring_scores_one_witness :
    ∃ r ∈ ((matchInstructions "apply betamethasone cream" [("Betamethasone", "Apply thin layer")] (mkRat 1 4) 10).getD []),
      r.name = "Betamethasone" ∧ r.score = 1 :=
  C3_exact_substring_scores_one "apply betamethasone cream"
    [("Betamethasone", "Apply thin layer")] (mkRat 1 4) 10
    ((matchInstructions "apply betamethasone cream" [("Betamethasone", "Apply thin layer")] (mkRat 1 4) 10).getD [])
    "Betamethasone" "Apply thin layer"
    (by decide) (by decide) (by decide) (by decide)
    (by decide) (by decide) (by decide) (by decide)

/-- C3 counterexample to the claim as stated: the name "Cream" is lowercased
a verbatim substring of the normalized query "cream", yet the match returns
no result at all (its only variant is a bare form word and is skipped). -/
theorem C3_counterexample :
    isSubstr (lower (pyStrip "Cream")) (textJoin "cream") = true ∧
    matchInstructions "cream" [("Cream", "x")] (mkRat 1 4) 10 = some [] := by
  decide

/-- C1 (amended): every returned result corresponds to a catalog entry that
shares at least one of its core tokens verbatim with the normalized input
tokens, where the core tokens are the entry's non-form tokens, or all of its
tokens when every token is a form word (the code's fallback). -/
theorem C1_results_share_core_token (text : String) (db : List (String × String))
    (cutoff : ℚ) (m : Nat) (out : List MatchResult)
    (h : matchInstructions text db cutoff m = some out) :
    ∀ r ∈ out, ∃ p, (r.name, p) ∈ db ∧ ∃ t ∈ coreTokens r.name, t ∈ textWords text := by
  intro r hr
  obtain ⟨n, p, hmem, hpe⟩ := result_origin h r hr
  obtain ⟨hname, _, hne, _⟩ := processEntry_some hpe
  subst hname
  obtain ⟨t, ht⟩ := hne
  obtain ⟨ht1, ht2⟩ := Finset.mem_inter.mp ht
  exact ⟨p, hmem, t, ht1, List.mem_toFinset.mp ht2⟩

/-- C1 witness at a concrete input and its concrete returned result. -/
theorem C1_results_share_core_token_witness :
    ∃ p, ((⟨"Paracetamol", "paracetamol", "Take one", 1⟩ : MatchResult).name, p) ∈
        [("Paracetamol", "Take one")] ∧
      ∃ t ∈ coreTokens (⟨"Paracetamol", "paracetamol", "Take one", 1⟩ : MatchResult).name,
        t ∈ textWords "paracetamol 500" :=
  C1_results_share_core_token "paracetamol 500" [("Paracetamol", "Take one")] (mkRat 1 4) 10
    ((matchInstructions "paracetamol 500" [("Paracetamol", "Take one")] (mkRat 1 4) 10).getD [])
    (by decide) ⟨"Paracetamol", "paracetamol", "Take one", 1⟩ (by decide)

/-- C1 counterexample to the claim as stated: for the all-form name
"Ointment/Cream" every token of the name is a form word, so it shares zero
non-form tokens with any input, yet it is returned (with score 1) for the
query "ointment cream". -/
theorem C1_counterexample :
    ∃ r ∈ ((matchInstructions "ointment cream" [("Ointment/Cream", "use sparingly")] (mkRat 1 4) 10).getD []),
      drugTokens (lower r.name) \ FORMSet = ∅ := by
  decide

/-- C2: the engine is claimed never to raise, but a catalog name whose first
slash segment is empty ("/Cream") makes `_expand_variants` evaluate
`parts[0].split()[0]` on an empty list, raising IndexError (modelled as
`none`) whenever the entry passes the core-token gate. -/
theorem C2_exception_on_empty_first_segment :
    matchInstructions "cream" [("/Cream", "apply thinly")] (mkRat 1 4) 10 = none := by
  decide

/-- C4 (amended): the payload text carried by every returned result equals
the corresponding catalog entry's payload with leading and trailing
whitespace stripped (`_snippet` calls `.strip()`). -/
theorem C4_payload_stripped (text : String) (db : List (String × String))
    (cutoff : ℚ) (m : Nat) (out : List MatchResult)
    (h : matchInstructions text db cutoff m = some out) :
    ∀ r ∈ out, ∃ p, (r.name, p) ∈ db ∧ r.payload = pyStrip p := by
  intro r hr
  obtain ⟨n, p, hmem, hpe⟩ := result_origin h r hr
  obtain ⟨hname, hpay, _, _⟩ := processEntry_some hpe
  subst hname
  exact ⟨p, hmem, by rw [hpay, snippetOf_eq_pyStrip]⟩

/-- C4 witness at a concrete input and its concrete returned result. -/
theorem C4_payload_stripped_witness :
    ∃ p, ((⟨"Ibuprofen", "ibuprofen", "with food", 1⟩ : MatchResult).name, p) ∈
        [("Ibuprofen", " with food ")] ∧
      (⟨"Ibuprofen", "ibuprofen", "with food", 1⟩ : MatchResult).payload = pyStrip p :=
  C4_payload_stripped "ibuprofen" [("Ibuprofen", " with food ")] (mkRat 1 4) 10
    ((matchInstructions "ibuprofen" [("Ibuprofen", " with food ")] (mkRat 1 4) 10).getD [])
    (by decide) ⟨"Ibuprofen", "ibuprofen", "with food", 1⟩ (by decide)

/-- C4 counterexample to the claim as stated: a payload with surrounding
whitespace is not carried character-for-character; the matcher strips it. -/
theorem C4_counterexample :
    ∃ r ∈ ((matchInstructions "amoxicillin" [("Amoxicillin", " take twice ")] (mkRat 1 4) 10).getD []),
      r.name = "Amoxicillin" ∧ r.payload ≠ " take twice " := by
  decide

/-- C5: with text "ointment cream", a catalog holding exactly the entry
"Cream" and cutoff 0.25, the match returns zero results for every payload and
every maxResults: the only variant of the pure-form name is a bare form token,
skipped from scoring, so the entry is excluded despite the exact token match. -/
theorem C5_bare_form_entry_unmatchable (payload : String) (m : Nat) :
    matchInstructions "ointment cream" [("Cream", payload)] (mkRat 1 4) m = some [] := by
  have hpe : processEntry (textWords "ointment cream") (textJoin "ointment cream")
      (mkRat 1 4) "Cream" payload = some none := rfl
  unfold matchInstructions
  rw [if_neg (by decide)]
  have hfold : List.foldl
      (entryFold (textWords "ointment cream") (textJoin "ointment cream") (mkRat 1 4))
      (some []) [("Cream", payload)] = some [] := by
    rw [List.foldl_cons, List.foldl_nil]
    simp [entryFold, hpe]
  simp only [hfold]
  simp [sortResults]

/-- C6 (amended): every returned result's pre-rounding final score is at
least the cutoff, so the stored 3-decimal score is at least
`cutoff - 1/2000`; rounding can push the stored score below the cutoff by
at most half a thousandth. -/
theorem C6_score_ge_cutoff_minus_rounding (text : String) (db : List (String × String))
    (cutoff : ℚ) (m : Nat) (out : List MatchResult)
    (h : matchInstructions text db cutoff m = some out) :
    ∀ r ∈ out, (∃ fs, cutoff ≤ fs ∧ r.score = round3 fs) ∧
      cutoff - mkRat 1 2000 ≤ r.score := by
  intro r hr
  obtain ⟨n, p, hmem, hpe⟩ := result_origin h r hr
  obtain ⟨_, _, _, fs, hfs, hsc⟩ := processEntry_some hpe
  have hb := (round3_bounds fs).1
  refine ⟨⟨fs, hfs, hsc⟩, ?_⟩
  rw [hsc]
  linarith

/-- C6 witness at a concrete input and its concrete returned result. -/
theorem C6_score_ge_cutoff_minus_rounding_witness :
    (∃ fs, mkRat 1 2 ≤ fs ∧ (⟨"Aspirin", "aspirin", "chew", 1⟩ : MatchResult).score = round3 fs) ∧
      mkRat 1 2 - mkRat 1 2000 ≤ (⟨"Aspirin", "aspirin", "chew", 1⟩ : MatchResult).score :=
  C6_score_ge_cutoff_minus_rounding "aspirin" [("Aspirin", "chew")] (mkRat 1 2) 10
    ((matchInstructions "aspirin" [("Aspirin", "chew")] (mkRat 1 2) 10).getD [])
    (by decide) ⟨"Aspirin", "aspirin", "chew", 1⟩ (by decide)

/-- C6 counterexample to the claim as stated: with cutoff 8/11 the entry
"abcd xy" attains final score exactly 8/11 (a windowed similarity ratio),
which passes the filter, but the stored score `round(8/11, 3) = 0.727` is
strictly below the cutoff. -/
theorem C6_counterexample :
    ∃ r ∈ ((matchInstructions "abcd" [("abcd xy", "p")] (mkRat 8 11) 5).getD []),
      r.score < mkRat 8 11 := by
  decide

/-- C7: the returned list is sorted by score descending, with ties broken by
catalog name ascending. -/
theorem C7_sorted_by_score_then_name (text : String) (db : List (String × String))
    (cutoff : ℚ) (m : Nat) (out : List MatchResult)
    (h : matchInstructions text db cutoff m = some out) :
    List.Pairwise (fun a b : MatchResult =>
      b.score < a.score ∨ (a.score = b.score ∧ a.name ≤ b.name)) out := by
  by_cases htext : text = ""
  · have hout : out = [] := by
      subst htext
      unfold matchInstructions at h
      simp at h
      exact h
    subst hout
    exact List.Pairwise.nil
  · obtain ⟨rs, hf, hout2⟩ := matchInstructions_decomp h htext
    rw [hout2]
    exact List.Pairwise.sublist (List.take_sublist m _) (sortResults_sorted rs)

/-- C7 witness at a concrete input with two tied results ordered by name. -/
theorem C7_sorted_by_score_then_name_witness :
    List.Pairwise (fun a b : MatchResult =>
      b.score < a.score ∨ (a.score = b.score ∧ a.name ≤ b.name))
      ((matchInstructions "amoxicillin ibuprofen" [("Amoxicillin", "a"), ("Ibuprofen", "b")] (mkRat 1 4) 10).getD []) :=
  C7_sorted_by_score_then_name "amoxicillin ibuprofen" [("Amoxicillin", "a"), ("Ibuprofen", "b")]
    (mkRat 1 4) 10
    ((matchInstructions "amoxicillin ibuprofen" [("Amoxicillin", "a"), ("Ibuprofen", "b")] (mkRat 1 4) 10).getD [])
    (by decide)

/-- C8: empty input text yields an empty result list without error, for every
catalog snapshot, cutoff and maxResults. -/
theorem C8_empty_text_empty_results (db : List (String × String)) (cutoff : ℚ) (m : Nat) :
    matchInstructions "" db cutoff m = some [] := rfl

/-- C9: the tokenizer is claimed to drop pieces that become empty after
punctuation stripping, but the source tests the piece before stripping
(`if w.strip()`), so a piece of pure punctuation contributes an empty token
and doubles a space in the rejoined text. -/
theorem C9_punctuation_only_piece_keeps_empty_token :
    textWords "a ... b" = ["a", "", "b"] ∧ textJoin "a ... b" = "a  b" := by
  decide

/-- C10: non-empty all-whitespace input bypasses the empty-input guard but
tokenizes to nothing, so no catalog entry passes the core-token gate and the
result is empty. -/
theorem C10_whitespace_text_empty_results (text : String) (db : List (String × String))
    (cutoff : ℚ) (m : Nat)
    (h1 : text ≠ "") (h2 : ∀ c ∈ text.data, c.isWhitespace = true) :
    matchInstructions text db cutoff m = some [] := by
  have htw : textWords text = [] := textWords_ws h2
  unfold matchInstructions
  rw [if_neg h1]
  simp only [htw]
  rw [foldl_entryFold_all_none (fun n p hm => processEntry_empty_tw n p)]
  simp [sortResults]

/-- C10 witness at a concrete whitespace input. -/
theorem C10_whitespace_text_empty_results_witness :
    matchInstructions "   " [("Amoxicillin", "x")] (mkRat 1 4) 10 = some [] :=
  C10_whitespace_text_empty_results "   " [("Amoxicillin", "x")] (mkRat 1 4) 10
    (by decide) (by decide)

end MedGuide
